import Mathlib

/-!
Shallow embedding of the voxel map storage engine: the bit-packed octree
addressing scheme (`map/src/octree/location_code.rs`), the sparse block
octree with merge/split `set_volume` semantics (`map/src/octree/mod.rs`),
the chunk coordinate mapping (`map/src/lib.rs`), the varint encoder
(`map/src/io.rs`) and the region store (`map/src/region.rs`).

Machine integers (`u32`) are modelled as `Nat`.  Every location code the
engine constructs passes the capacity guard of `push_sub_cube`, so all
codes stay below `2 ^ 32` and plain `Nat` arithmetic is exact; no explicit
modulus is needed.  A Rust panic is modelled as `none`.  The two unbounded
`while` loops of `clear_subvolume_and_set` and the depth-first iterator are
written with explicit fuel far beyond what any 32-bit-code map can consume,
so fuel exhaustion (also `none`) is unreachable on states the engine can
build.
-/

namespace Voxel

/-- The eight octants of a cube subdivision (`SubCube` in
`location_code.rs`). -/
inductive SubCube where
  | LowerSw | LowerSe | LowerNw | LowerNe
  | UpperSw | UpperSe | UpperNw | UpperNe
  deriving DecidableEq

namespace SubCube

/-- `SubCube::to_bits`: the fixed 3-bit code of each octant. -/
def to_bits : SubCube → Nat
  | LowerSw => 0b000 | LowerSe => 0b001 | LowerNw => 0b010 | LowerNe => 0b011
  | UpperSw => 0b100 | UpperSe => 0b101 | UpperNw => 0b110 | UpperNe => 0b111

/-- `SubCube::from_bits`.  In the source it panics above 7, but every call
site masks its argument to the low 3 bits first; the mask (`% 8`) is folded
into the definition, which makes it total. -/
def from_bits (r : Nat) : SubCube :=
  match r % 8 with
  | 0 => LowerSw | 1 => LowerSe | 2 => LowerNw | 3 => LowerNe
  | 4 => UpperSw | 5 => UpperSe | 6 => UpperNw | _ => UpperNe

/-- `SubCube::from_xyz`: bit layout y in bit 2, z in bit 1, x in bit 0;
`none` when any input is not a single bit. -/
def from_xyz (x y z : Nat) : Option SubCube :=
  if 1 < x ∨ 1 < y ∨ 1 < z then none
  else some (from_bits ((y <<< 2) ||| (z <<< 1) ||| x))

/-- `SubCube::next_sibling`: the fixed successor order used for traversal
and canonical serialization. -/
def next_sibling : SubCube → Option SubCube
  | LowerSw => some LowerSe
  | LowerSe => some LowerNw
  | LowerNw => some LowerNe
  | LowerNe => some UpperSw
  | UpperSw => some UpperSe
  | UpperSe => some UpperNw
  | UpperNw => some UpperNe
  | UpperNe => none

/-- `SubCube::all_sub_cubes`: the 8 octants in canonical order. -/
def all_sub_cubes : List SubCube :=
  [LowerSw, LowerSe, LowerNw, LowerNe, UpperSw, UpperSe, UpperNw, UpperNe]

end SubCube

/-- The unchecked shift-and-or that a push performs once its capacity guard
has passed.  The guard keeps every constructed code below `2 ^ 32`, and the
parent of a 32-bit code is below `2 ^ 29`, so at the call sites that use
`push_raw` directly (sibling pushes during climbs) the guard of the source
could never fire. -/
def push_raw (code : Nat) (sc : SubCube) : Nat :=
  (code <<< 3) ||| sc.to_bits

/-- `LocationCode::push_sub_cube`; `none` models the capacity panic. -/
def push_sub_cube (code : Nat) (sc : SubCube) : Option Nat :=
  if code &&& 0xE0000000 ≠ 0 then none else some (push_raw code sc)

/-- `LocationCode::sub_cube`: decompose a non-root code into its parent and
last octant (`none` exactly at `ROOT`). -/
def sub_cube (code : Nat) : Option (Nat × SubCube) :=
  if code = 1 then none else some (code >>> 3, SubCube.from_bits (code &&& 0b111))

/-- `LocationCode::containing_cube`. -/
def containing_cube (code : Nat) : Option Nat :=
  if code = 1 then none else some (code >>> 3)

/-- Bit length of a machine-word value, with the word size as structural
fuel; mirrors `32 - v.leading_zeros()` for `v : u32`. -/
def bit_len_aux : Nat → Nat → Nat
  | 0, _ => 0
  | _ + 1, 0 => 0
  | fuel + 1, v + 1 => bit_len_aux fuel ((v + 1) / 2) + 1

/-- Bit length of a `u32` value. -/
def bit_len (v : Nat) : Nat := bit_len_aux 32 v

/-- The number of 3-bit groups of a code, from `from_root_to_here_impl`:
`code_bits / 3` where `code_bits = 32 - (leading_zeros + 1)`. -/
def shifts_of (v : Nat) : Nat := (bit_len v - 1) / 3

/-- `LocationCode::from_root_to_here`: the inclusive root-to-code path,
oldest first, each prefix re-derived by right-shifting. -/
def from_root_to_here (v : Nat) : List Nat :=
  (List.range (shifts_of v + 1)).map (fun i => v >>> (3 * (shifts_of v - i)))

/-- `LocationCode::from_root_to_just_above_here`. -/
def from_root_to_just_above_here (v : Nat) : List Nat :=
  match containing_cube v with
  | some cc => from_root_to_here cc
  | none => []

/-- A node of the sparse octree (`OctreeNode<T>`). -/
inductive OctreeNode (T : Type) where
  | Present (value : T)
  | Subdivided
  deriving DecidableEq

/-- The `LocationCode → OctreeNode<T>` map that a `BlockOctree` owns, as an
association list with the `HashMap` lookup/insert/remove semantics. -/
abbrev Octree (T : Type) := List (Nat × OctreeNode T)

/-- `HashMap::get`, and hence `BlockOctree::get_volume` (direct lookup). -/
def get_volume {T : Type} : Octree T → Nat → Option (OctreeNode T)
  | [], _ => none
  | e :: r, k => if k = e.1 then some e.2 else get_volume r k

/-- `HashMap::insert` (replace or add). -/
def map_insert {T : Type} (m : Octree T) (k : Nat) (v : OctreeNode T) : Octree T :=
  (k, v) :: m.filter (fun e => decide (e.1 ≠ k))

/-- `HashMap::remove`. -/
def map_remove {T : Type} (m : Octree T) (k : Nat) : Octree T :=
  m.filter (fun e => decide (e.1 ≠ k))

/-- `BlockOctree::with_block`: a fresh map holding the root block. -/
def with_block {T : Type} (root_block : T) : Octree T :=
  map_insert [] 1 (.Present root_block)

/-- `BlockOctree::subdivide`: create the 8 children as `Present value` in
canonical order, then overwrite `volume` as `Subdivided`.  `none` models the
push panic, which the first child push would raise before any insertion. -/
def subdivide {T : Type} (m : Octree T) (volume : Nat) (value : T) : Option (Octree T) :=
  if volume &&& 0xE0000000 ≠ 0 then none
  else some (map_insert
    (SubCube.all_sub_cubes.foldl
      (fun acc sc => map_insert acc (push_raw volume sc) (.Present value)) m)
    volume .Subdivided)

/-- Outcome of the root-to-target walk inside `set_volume`: an early return
with the source's boolean, or falling through to the final match. -/
inductive WalkResult (T : Type) where
  | early (ret : Bool) (m : Octree T)
  | through (m : Octree T)

/-- The `for location_code in volume.from_root_to_just_above_here()` loop of
`set_volume`; `none` models the `unwrap` panic on an address missing from
the map. -/
def walk_path {T : Type} [DecidableEq T] (is_hom : T → Bool) (data : T) (data_hom : Bool) :
    List Nat → Octree T → Option (WalkResult T)
  | [], m => some (.through m)
  | lc :: rest, m =>
    match get_volume m lc with
    | none => none
    | some .Subdivided => walk_path is_hom data data_hom rest m
    | some (.Present vd) =>
      if data_hom && decide (vd = data) then some (.early true m)
      else if is_hom vd then
        match subdivide m lc vd with
        | none => none
        | some m2 => walk_path is_hom data data_hom rest m2
      else some (.early false m)

/-- The sibling-advance loop inside `clear_subvolume_and_set` (the inner
`while current_volume != volume`): step to the next sibling, or to the
parent when the octant has none, until `volume` is reached.  `none` models
the `unwrap` panic when the walk runs past the root. -/
def climb_to : Nat → Nat → Nat → Option Nat
  | 0, _, _ => none
  | fuel + 1, volume, current =>
    if current = volume then some current
    else
      match sub_cube current with
      | none => none
      | some (parent, sc) =>
        match sc.next_sibling with
        | some sib => climb_to fuel volume (push_raw parent sib)
        | none => climb_to fuel volume parent

/-- The outer `while current_volume != volume` loop of
`clear_subvolume_and_set`: descend the `LowerSw` corner of subdivided nodes;
at a present node, remove it and advance the cursor with the sibling
walk. -/
def clear_loop {T : Type} : Nat → Octree T → Nat → Nat → Option (Octree T)
  | 0, _, _, _ => none
  | fuel + 1, m, volume, current =>
    if current = volume then some m
    else
      match get_volume m current with
      | none => none
      | some .Subdivided =>
        match push_sub_cube current .LowerSw with
        | none => none
        | some c2 => clear_loop fuel m volume c2
      | some (.Present _) =>
        match climb_to 1024 volume current with
        | none => none
        | some c2 => clear_loop fuel (map_remove m current) volume c2

/-- `BlockOctree::clear_subvolume_and_set`. -/
def clear_subvolume_and_set {T : Type} (m : Octree T) (volume : Nat) (data : T) :
    Option (Octree T) :=
  match push_sub_cube volume .LowerSw with
  | none => none
  | some c0 =>
    (clear_loop 16777216 m volume c0).map (fun m2 => map_insert m2 volume (.Present data))

/-- `BlockOctree::set_volume`: returns the boolean of the source paired with
the updated map; `none` models a panic. -/
def set_volume {T : Type} [DecidableEq T] (is_hom : T → Bool) (m : Octree T) (volume : Nat)
    (data : T) : Option (Bool × Octree T) :=
  match walk_path is_hom data (is_hom data) (from_root_to_just_above_here volume) m with
  | none => none
  | some (.early ret m2) => some (ret, m2)
  | some (.through m2) =>
    match get_volume m2 volume with
    | none => none
    | some .Subdivided => (clear_subvolume_and_set m2 volume data).map (fun m3 => (true, m3))
    | some (.Present _) => some (true, map_insert m2 volume (.Present data))

/-- `DepthFirstIterator::next_sibling_of`, with the word size as climb fuel
(a 32-bit code has at most 11 levels, so the fuel never runs out on real
codes). -/
def next_sibling_of_aux : Nat → Nat → Option Nat
  | 0, _ => none
  | fuel + 1, loc =>
    match sub_cube loc with
    | none => none
    | some (parent, sc) =>
      match sc.next_sibling with
      | some sib => some (push_raw parent sib)
      | none => next_sibling_of_aux fuel parent

/-- `DepthFirstIterator::next_sibling_of`. -/
def next_sibling_of (loc : Nat) : Option Nat := next_sibling_of_aux 34 loc

/-- `DepthFirstIterator::next`: descend the `LowerSw` corner of subdivided
nodes until a present node, yield it together with the successor cursor;
`none` models the panic on an address missing from the map. -/
def df_next {T : Type} : Nat → Octree T → Nat → Option ((Nat × T) × Option Nat)
  | 0, _, _ => none
  | fuel + 1, m, loc =>
    match get_volume m loc with
    | none => none
    | some (.Present b) => some ((loc, b), next_sibling_of loc)
    | some .Subdivided =>
      match push_sub_cube loc .LowerSw with
      | none => none
      | some c2 => df_next fuel m c2

/-- Repeatedly drive the depth-first cursor, collecting every yielded pair;
`none` if any step panics. -/
def df_list {T : Type} : Nat → Octree T → Option Nat → Option (List (Nat × T))
  | 0, _, _ => none
  | _ + 1, _, none => some []
  | fuel + 1, m, some loc =>
    match df_next 64 m loc with
    | none => none
    | some (pair, nxt) => (df_list fuel m nxt).map (fun l => pair :: l)

/-- `BlockOctree::depth_first_blocks`, materialised as the list of yielded
pairs, starting the cursor at `ROOT`. -/
def depth_first_blocks {T : Type} (m : Octree T) : Option (List (Nat × T)) :=
  df_list 16777216 m (some 1)

/-- The validation of `ChunkRelativeCoord::new`: every axis below 64. -/
def chunk_coord_ok (x y z : Nat) : Bool :=
  decide (x < 64) && decide (y < 64) && decide (z < 64)

/-- `ChunkRelativeCoord::to_location_code`: six levels, shift amounts
`6 + 1 - idx`; `none` models a panic (the `unwrap` on `from_xyz` or the push
capacity guard). -/
def to_location_code (x y z : Nat) : Option Nat :=
  (List.range 6).foldl
    (fun acc idx => acc.bind (fun code =>
      let shift := 6 + 1 - idx
      match SubCube.from_xyz (x >>> shift) (y >>> shift) (z >>> shift) with
      | none => none
      | some sc => push_sub_cube code sc))
    (some 1)

/-- `OctreeBlock`: an optional handle to a block definition, compared by
reference identity (`Arc::ptr_eq`); identities are modelled as abstract
integer tokens, so handle equality is token equality. -/
abbrev OctreeBlock := Option Nat

/-- The `BlockInfo` impl for `OctreeBlock`: `None` (air) is always
homogeneous, a block defers to its definition's `homogeneous` flag, here the
table `defs`. -/
def block_is_homogeneous (defs : Nat → Bool) : OctreeBlock → Bool
  | none => true
  | some b => defs b

/-- `Chunk::set_block`: convert the coordinate to a location code, call
`set_volume`, and drop its boolean result. -/
def set_block (defs : Nat → Bool) (m : Octree OctreeBlock) (x y z : Nat)
    (block : OctreeBlock) : Option (Octree OctreeBlock) :=
  match to_location_code x y z with
  | none => none
  | some code => (set_volume (block_is_homogeneous defs) m code block).map (fun r => r.2)

/-- `write_varint` from `io.rs`; output bytes as `Nat` values below 256. -/
def write_varint (n : Nat) : List Nat :=
  if n < 0b01111111 then
    [n]
  else if n < 0b0011111111111111 then
    [(n >>> 7) ||| 0x80,
      n &&& 0x7f]
  else if n < 0b000111111111111111111111 then
    [(n >>> 14) ||| 0x80,
      ((n >>> 7) &&& 0x7f) ||| 0x80,
      n &&& 0x7f]
  else if n < 0b1111111111111111111111111111 then
    [(n >>> 21) ||| 0x80,
      ((n >>> 14) &&& 0x7f) ||| 0x80,
      ((n >>> 7) &&& 0x7f) ||| 0x80,
      n &&& 0x7f]
  else
    [(n >>> 28) ||| 0x80,
      ((n >>> 21) &&& 0x7f) ||| 0x80,
      ((n >>> 14) &&& 0x7f) ||| 0x80,
      ((n >>> 7) &&& 0x7f) ||| 0x80,
      n &&& 0x7f]

/-- Modelled from the spec: the decode direction of the varint format is
absent from the source (spec §9); this is the structural inverse of the
format the spec documents — 7 data bits per byte, least-significant group
first, high bit set on every byte except the last. -/
def read_varint : List Nat → Option Nat
  | [] => none
  | [b] => if b &&& 0x80 = 0 then some (b &&& 0x7f) else none
  | b :: rest =>
    if b &&& 0x80 = 0 then none
    else (read_varint rest).map (fun v => (b &&& 0x7f) + (v <<< 7))

/-- `ChunkCompression` from `region.rs`. -/
inductive ChunkCompression where
  | Brotli

/-- `ChunkCompression::from_int`. -/
def chunk_compression_from_int (n : Nat) : Option ChunkCompression :=
  if n = 1 then some .Brotli else none

/-- `ChunkCompression::as_int`. -/
def chunk_compression_as_int : ChunkCompression → Nat
  | .Brotli => 1

/-- The `chunks` table of a region file: rows keyed by chunk coordinate,
holding a compression tag and the compressed payload blob. -/
abbrev RegionStore := List ((Int × Int × Int) × (Nat × List Nat))

/-- `SELECT compression, chunk_data FROM chunks WHERE ...` on the primary
key. -/
def store_find : RegionStore → (Int × Int × Int) → Option (Nat × List Nat)
  | [], _ => none
  | e :: r, k => if k = e.1 then some e.2 else store_find r k

/-- `Region::save_chunk`: compress the bytes and upsert the row
(`INSERT .. ON CONFLICT .. DO UPDATE`).  The brotli encoder is an external
library, modelled by the `compress` parameter. -/
def save_chunk (compress : List Nat → List Nat) (st : RegionStore)
    (coord : Int × Int × Int) (bytes : List Nat) : RegionStore :=
  (coord, (chunk_compression_as_int .Brotli, compress bytes)) ::
    st.filter (fun e => decide (e.1 ≠ coord))

/-- `Region::load_chunk`: read the row, dispatch on the stored compression
tag, decompress.  `none` models the missing-row error and the
`from_int(..).unwrap` panic; the brotli decoder is an external library,
modelled by the `decompress` parameter. -/
def load_chunk (decompress : List Nat → List Nat) (st : RegionStore)
    (coord : Int × Int × Int) : Option (List Nat) :=
  match store_find st coord with
  | none => none
  | some (tag, blob) =>
    match chunk_compression_from_int tag with
    | none => none
    | some .Brotli => some (decompress blob)

/-- The reachability half of the octree invariant (spec §3 and the §4.2
state machine: absent is only valid for non-reachable codes): any address
present in the map below the root has its parent present as `Subdivided`.
Equivalently: no orphans, and no `Present` node has children. -/
def ChildParent {T : Type} (m : Octree T) : Prop :=
  ∀ c : Nat, 8 ≤ c → (get_volume m c).isSome → get_volume m (c >>> 3) = some .Subdivided

/-- Decidable check of the coverage invariant on a concrete map: every
`Subdivided` entry has all 8 children present, every `Present` entry has no
child present. -/
def coverage_check {T : Type} (m : Octree T) : Bool :=
  m.all (fun e =>
    match e.2 with
    | .Subdivided =>
      SubCube.all_sub_cubes.all (fun sc => (get_volume m (push_raw e.1 sc)).isSome)
    | .Present _ =>
      SubCube.all_sub_cubes.all (fun sc => (get_volume m (push_raw e.1 sc)).isNone))

/-- Location codes reachable from `ROOT` by successful pushes. -/
inductive ValidCode : Nat → Prop where
  | root : ValidCode 1
  | push (c : Nat) (sc : SubCube) (c2 : Nat) :
      ValidCode c → push_sub_cube c sc = some c2 → ValidCode c2

/-- Concrete homogeneity policy of the octree unit test and benchmark
(`BlockDefs`): every block is homogeneous. -/
def ex_hom : Nat → Bool := fun _ => true

/-- A fresh octree holding block `0` everywhere. -/
def ex_tree0 : Octree Nat := with_block 0

/-- The map after `set_volume (ROOT.push LowerNe) 1` on `ex_tree0`: root
subdivided, eight depth-1 children. -/
def ex_tree1 : Octree Nat :=
  [(11, .Present 1), (1, .Subdivided), (15, .Present 0), (14, .Present 0),
    (13, .Present 0), (12, .Present 0), (10, .Present 0), (9, .Present 0), (8, .Present 0)]

/-- The map after the merge call `set_volume ROOT 2` on `ex_tree1`. -/
def ex_tree2 : Octree Nat :=
  [(1, .Present 2), (11, .Present 1), (15, .Present 0), (14, .Present 0),
    (13, .Present 0), (12, .Present 0), (10, .Present 0), (9, .Present 0)]

/-- A concrete depth-1 octree whose `LowerSw` child holds a value that its
policy deems non-homogeneous. -/
def ex6_map : Octree Nat :=
  [(1, .Subdivided), (8, .Present 5), (9, .Present 0), (10, .Present 0), (11, .Present 0),
    (12, .Present 0), (13, .Present 0), (14, .Present 0), (15, .Present 0)]

theorem bit_len_aux_zero (fuel : Nat) : bit_len_aux fuel 0 = 0 := by
  cases fuel <;> rfl

/-- Characterisation of `bit_len_aux`: on `1 ≤ v < 2 ^ fuel` it returns the
position of the leading one-bit plus one. -/
theorem bit_len_aux_char (fuel : Nat) : ∀ v : Nat, 1 ≤ v → v < 2 ^ fuel →
    1 ≤ bit_len_aux fuel v ∧ 2 ^ (bit_len_aux fuel v - 1) ≤ v ∧ v < 2 ^ bit_len_aux fuel v := by
  induction fuel with
  | zero => intro v h1 h2; omega
  | succ fuel ih =>
    intro v h1 h2
    obtain ⟨w, rfl⟩ : ∃ w, v = w + 1 := ⟨v - 1, by omega⟩
    have heq : bit_len_aux (fuel + 1) (w + 1) = bit_len_aux fuel ((w + 1) / 2) + 1 := rfl
    rw [heq]
    by_cases hw : (w + 1) / 2 = 0
    · have hz : w = 0 := by omega
      subst hz
      rw [hw, bit_len_aux_zero]
      norm_num
    · have hlt : (w + 1) / 2 < 2 ^ fuel := by
        rw [Nat.pow_succ] at h2
        omega
      obtain ⟨hb1, hb2, hb3⟩ := ih ((w + 1) / 2) (by omega) hlt
      have hb : bit_len_aux fuel ((w + 1) / 2) = (bit_len_aux fuel ((w + 1) / 2) - 1) + 1 := by
        omega
      refine ⟨by omega, ?_, ?_⟩
      · rw [Nat.add_sub_cancel, hb, Nat.pow_succ]
        omega
      · rw [Nat.pow_succ]
        omega

theorem bit_len_char (v : Nat) (h1 : 1 ≤ v) (h2 : v < 2 ^ 32) :
    1 ≤ bit_len v ∧ 2 ^ (bit_len v - 1) ≤ v ∧ v < 2 ^ bit_len v :=
  bit_len_aux_char 32 v h1 h2

theorem bit_len_eq (v k : Nat) (h1 : 2 ^ k ≤ v) (h2 : v < 2 ^ (k + 1)) (h32 : v < 2 ^ 32) :
    bit_len v = k + 1 := by
  have hk : (0:Nat) < 2 ^ k := Nat.pos_pow_of_pos k (by omega)
  obtain ⟨hb1, hb2, hb3⟩ := bit_len_char v (by omega) h32
  have hx : bit_len v - 1 < k + 1 := by
    by_contra hcon
    have : 2 ^ (k + 1) ≤ 2 ^ (bit_len v - 1) := Nat.pow_le_pow_right (by omega) (by omega)
    omega
  have hy : k < bit_len v := by
    by_contra hcon
    have : 2 ^ bit_len v ≤ 2 ^ k := Nat.pow_le_pow_right (by omega) (by omega)
    omega
  omega

theorem pow8_eq (t : Nat) : (8:Nat) ^ t = 2 ^ (3 * t) := by
  rw [Nat.pow_mul]

theorem shifts_of_le (v k : Nat) (h8 : 8 ^ k ≤ v) (h32 : v < 2 ^ 32) : k ≤ shifts_of v := by
  have h1 : 1 ≤ v := le_trans (Nat.pos_pow_of_pos k (by omega)) h8
  obtain ⟨hb1, hb2, hb3⟩ := bit_len_char v h1 h32
  rw [pow8_eq] at h8
  have h3k : 3 * k < bit_len v := by
    by_contra hcon
    have : 2 ^ bit_len v ≤ 2 ^ (3 * k) := Nat.pow_le_pow_right (by omega) (by omega)
    omega
  unfold shifts_of
  omega

theorem pow8_shifts_le (v : Nat) (h1 : 1 ≤ v) (h32 : v < 2 ^ 32) : 8 ^ shifts_of v ≤ v := by
  obtain ⟨hb1, hb2, hb3⟩ := bit_len_char v h1 h32
  rw [pow8_eq]
  refine le_trans (Nat.pow_le_pow_right (by omega) ?_) hb2
  unfold shifts_of
  omega

theorem shifts_of_div8 (v : Nat) (h8 : 8 ≤ v) (h32 : v < 2 ^ 32) :
    shifts_of (v >>> 3) = shifts_of v - 1 ∧ 1 ≤ shifts_of v := by
  obtain ⟨hb1, hb2, hb3⟩ := bit_len_char v (by omega) h32
  have hb4 : 4 ≤ bit_len v := by
    by_contra hcon
    have : 2 ^ bit_len v ≤ 2 ^ 3 := Nat.pow_le_pow_right (by omega) (by omega)
    norm_num at this
    omega
  have hdiv : v >>> 3 = v / 2 ^ 3 := Nat.shiftRight_eq_div_pow v 3
  have hlow : 2 ^ (bit_len v - 4) ≤ v / 2 ^ 3 := by
    have : 2 ^ (bit_len v - 1) / 2 ^ 3 ≤ v / 2 ^ 3 := Nat.div_le_div_right hb2
    rw [Nat.pow_div (by omega) (by omega)] at this
    have he : bit_len v - 1 - 3 = bit_len v - 4 := by omega
    rw [he] at this
    exact this
  have hhigh : v / 2 ^ 3 < 2 ^ (bit_len v - 3) := by
    rw [Nat.div_lt_iff_lt_mul (by norm_num)]
    calc v < 2 ^ bit_len v := hb3
    _ = 2 ^ (bit_len v - 3) * 2 ^ 3 := by
        rw [← Nat.pow_add]
        congr 1
        omega
  have hble : bit_len (v >>> 3) = bit_len v - 3 := by
    rw [hdiv]
    have hres := bit_len_eq (v / 2 ^ 3) (bit_len v - 4) hlow (by
      have he : bit_len v - 4 + 1 = bit_len v - 3 := by omega
      rw [he]
      exact hhigh) (by
      have : v / 2 ^ 3 ≤ v := Nat.div_le_self v 8
      omega)
    omega
  constructor
  · unfold shifts_of
    rw [hble]
    omega
  · unfold shifts_of
    omega

/-- The walk over an appended path runs the first part and, when it falls
through, continues with the second on the updated map. -/
theorem walk_path_append {T : Type} [DecidableEq T] (is_hom : T → Bool) (data : T)
    (data_hom : Bool) (L1 L2 : List Nat) (m : Octree T) :
    walk_path is_hom data data_hom (L1 ++ L2) m =
      match walk_path is_hom data data_hom L1 m with
      | none => none
      | some (.early r m2) => some (.early r m2)
      | some (.through m2) => walk_path is_hom data data_hom L2 m2 := by
  induction L1 generalizing m with
  | nil => rfl
  | cons lc rest ih =>
    rw [List.cons_append]
    simp only [walk_path]
    cases hget : get_volume m lc with
    | none => rfl
    | some node =>
      cases node with
      | Subdivided =>
        exact ih m
      | Present vd =>
        by_cases h1 : (data_hom && decide (vd = data)) = true
        · simp only [h1, if_true]
        · rw [Bool.not_eq_true] at h1
          simp only [h1, Bool.false_eq_true, if_false]
          by_cases h2 : is_hom vd = true
          · simp only [h2, if_true]
            cases hsub : subdivide m lc vd with
            | none => rfl
            | some m2 => exact ih m2
          · rw [Bool.not_eq_true] at h2
            simp only [h2, Bool.false_eq_true, if_false]

/-- A walk over addresses that are all `Subdivided` falls through without
touching the map. -/
theorem walk_all_sub {T : Type} [DecidableEq T] (is_hom : T → Bool) (data : T)
    (data_hom : Bool) (L : List Nat) (m : Octree T)
    (h : ∀ q ∈ L, get_volume m q = some .Subdivided) :
    walk_path is_hom data data_hom L m = some (.through m) := by
  induction L with
  | nil => rfl
  | cons lc rest ih =>
    simp only [walk_path, h lc (by simp)]
    exact ih (fun q hq => h q (by simp [hq]))

/-- Under the no-orphans invariant, every strict ancestor of an address
present in the map is stored as `Subdivided`. -/
theorem anc_sub {T : Type} (m : Octree T) (hcp : ChildParent m) (p : Nat)
    (hp : (get_volume m p).isSome) :
    ∀ t : Nat, 1 ≤ t → 8 ^ t ≤ p → get_volume m (p >>> (3 * t)) = some .Subdivided := by
  intro t
  induction t with
  | zero => omega
  | succ t ih =>
    intro _ h8
    by_cases ht : t = 0
    · subst ht
      have h8p : 8 ≤ p := by simpa using h8
      have := hcp p h8p hp
      simpa using this
    · have h8t : 8 ^ t ≤ p := le_trans (Nat.pow_le_pow_right (by omega) (by omega)) h8
      have hsub := ih (by omega) h8t
      have hge : 8 ≤ p >>> (3 * t) := by
        rw [Nat.shiftRight_eq_div_pow, ← pow8_eq]
        have h1 : 8 ^ (t + 1) / 8 ^ t ≤ p / 8 ^ t := Nat.div_le_div_right h8
        rw [Nat.pow_div (by omega) (by omega)] at h1
        simpa using h1
      have := hcp (p >>> (3 * t)) hge (by rw [hsub]; rfl)
      rw [← Nat.shiftRight_add] at this
      have he : 3 * t + 3 = 3 * (t + 1) := by omega
      rw [he] at this
      exact this

theorem frth_small (v : Nat) (h1 : 1 ≤ v) (h8 : v < 8) : from_root_to_here v = [v] := by
  interval_cases v <;> rfl

/-- The root-to-here path of a non-root code is the path of its parent with
the code itself appended. -/
theorem frth_snoc (v : Nat) (h8 : 8 ≤ v) (h32 : v < 2 ^ 32) :
    from_root_to_here v = from_root_to_here (v >>> 3) ++ [v] := by
  obtain ⟨hdiv8, hs1⟩ := shifts_of_div8 v h8 h32
  unfold from_root_to_here
  rw [hdiv8]
  have hsplit : shifts_of v + 1 = shifts_of v - 1 + 1 + 1 := by omega
  rw [hsplit, List.range_succ, List.map_append]
  congr 1
  · apply List.map_congr_left
    intro i hi
    rw [List.mem_range] at hi
    have he : 3 * (shifts_of v - 1 - i) + 3 = 3 * (shifts_of v - i) := by omega
    rw [← Nat.shiftRight_add]
    congr 1
    omega
  · have he : 3 * (shifts_of v - (shifts_of v - 1 + 1)) = 0 := by omega
    simp [he]

/-- The root-to-target walk of `set_volume` refuses with `false` and leaves
the map untouched as soon as it meets a non-homogeneous block with a
different value, all shallower addresses being `Subdivided`. -/
theorem walk_early {T : Type} [DecidableEq T] (is_hom : T → Bool) (data : T) (data_hom : Bool)
    (m : Octree T) (hcp : ChildParent m) (vd : T)
    (hvd : is_hom vd = false) (hne : vd ≠ data) :
    ∀ t w : Nat, w < 2 ^ 32 → 8 ^ t ≤ w →
      get_volume m (w >>> (3 * t)) = some (.Present vd) →
      walk_path is_hom data data_hom (from_root_to_here w) m = some (.early false m) := by
  intro t
  induction t with
  | zero =>
    intro w h32 h8 hp
    rw [Nat.mul_zero, Nat.shiftRight_zero] at hp
    have h1 : 1 ≤ w := by simpa using h8
    have hrefuse : walk_path is_hom data data_hom [w] m = some (.early false m) := by
      simp only [walk_path, hp]
      simp [decide_eq_false hne, hvd]
    by_cases h8w : w < 8
    · rw [frth_small w h1 h8w]
      exact hrefuse
    · rw [frth_snoc w (by omega) h32, walk_path_append]
      have hanc : ∀ q ∈ from_root_to_here (w >>> 3), get_volume m q = some .Subdivided := by
        intro q hq
        unfold from_root_to_here at hq
        rw [List.mem_map] at hq
        obtain ⟨i, hi, rfl⟩ := hq
        rw [List.mem_range] at hi
        rw [← Nat.shiftRight_add]
        have he : 3 + 3 * (shifts_of (w >>> 3) - i) = 3 * (shifts_of (w >>> 3) - i + 1) := by
          omega
        rw [he]
        apply anc_sub m hcp w (by rw [hp]; rfl) _ (by omega)
        obtain ⟨hdiv8, hs1⟩ := shifts_of_div8 w (by omega) h32
        have hle : shifts_of (w >>> 3) - i + 1 ≤ shifts_of w := by omega
        exact le_trans (Nat.pow_le_pow_right (by omega) hle)
          (pow8_shifts_le w (by omega) h32)
      rw [walk_all_sub is_hom data data_hom _ m hanc]
      exact hrefuse
  | succ t ih =>
    intro w h32 h8 hp
    have h8w : 8 ≤ w := by
      calc 8 = 8 ^ 1 := by norm_num
      _ ≤ 8 ^ (t + 1) := Nat.pow_le_pow_right (by omega) (by omega)
      _ ≤ w := h8
    rw [frth_snoc w h8w h32, walk_path_append]
    have hdown : 8 ^ t ≤ w >>> 3 := by
      have hd : w >>> 3 = w / 8 ^ 1 := by
        rw [Nat.shiftRight_eq_div_pow]
        norm_num
      rw [hd]
      have h1 : 8 ^ (t + 1) / 8 ^ 1 ≤ w / 8 ^ 1 := Nat.div_le_div_right h8
      rw [Nat.pow_div (by omega) (by omega)] at h1
      simpa using h1
    have hp2 : get_volume m ((w >>> 3) >>> (3 * t)) = some (.Present vd) := by
      rw [← Nat.shiftRight_add]
      have he : 3 + 3 * t = 3 * (t + 1) := by omega
      rw [he]
      exact hp
    rw [ih (w >>> 3) (by
      have : w >>> 3 = w / 2 ^ 3 := Nat.shiftRight_eq_div_pow w 3
      have h2 : w / 2 ^ 3 ≤ w := Nat.div_le_self w 8
      omega) hdown hp2]

/-- For 32-bit values, the capacity guard of `push_sub_cube` is zero exactly
below `2 ^ 29`. -/
theorem mask_iff (c : Nat) (h32 : c < 2 ^ 32) :
    c &&& 0xE0000000 = 0 ↔ c < 2 ^ 29 := by
  have hmask : (0xE0000000 : Nat) = 7 <<< 29 := by decide
  constructor
  · intro h
    by_contra hcon
    push_neg at hcon
    have ht1 : 1 ≤ c >>> 29 := by
      rw [Nat.shiftRight_eq_div_pow]
      exact Nat.one_le_div_iff (by positivity) |>.mpr hcon
    have ht8 : c >>> 29 < 8 := by
      rw [Nat.shiftRight_eq_div_pow]
      rw [Nat.div_lt_iff_lt_mul (by positivity)]
      calc c < 2 ^ 32 := h32
      _ = 8 * 2 ^ 29 := by norm_num
      _ ≤ 8 * 2 ^ 29 := le_refl _
    obtain ⟨i, hi3, hib⟩ : ∃ i, i < 3 ∧ (c >>> 29).testBit i = true := by
      generalize hgen : c >>> 29 = t at ht1 ht8
      interval_cases t
      · exact ⟨0, by omega, by decide⟩
      · exact ⟨1, by omega, by decide⟩
      · exact ⟨0, by omega, by decide⟩
      · exact ⟨2, by omega, by decide⟩
      · exact ⟨0, by omega, by decide⟩
      · exact ⟨1, by omega, by decide⟩
      · exact ⟨0, by omega, by decide⟩
    have hcb : c.testBit (29 + i) = true := by
      rw [← Nat.testBit_shiftRight]
      exact hib
    have hmb : (0xE0000000 : Nat).testBit (29 + i) = true := by
      rw [hmask, Nat.testBit_shiftLeft]
      have h1 : decide (29 ≤ 29 + i) = true := by simp
      rw [h1, Bool.true_and]
      have h2 : 29 + i - 29 = i := by omega
      rw [h2]
      interval_cases i <;> decide
    have hand : (c &&& 0xE0000000).testBit (29 + i) = true := by
      rw [Nat.testBit_and, hcb, hmb]
      rfl
    rw [h] at hand
    rw [Nat.zero_testBit] at hand
    exact Bool.false_ne_true hand
  · intro h
    apply Nat.eq_of_testBit_eq
    intro i
    rw [Nat.testBit_and, Nat.zero_testBit]
    by_cases hi : i < 29
    · have hmb : (0xE0000000 : Nat).testBit i = false := by
        rw [hmask, Nat.testBit_shiftLeft]
        have h1 : decide (29 ≤ i) = false := by simp; omega
        rw [h1, Bool.false_and]
      rw [hmb, Bool.and_false]
    · have hcb : c.testBit i = false := by
        apply Nat.testBit_lt_two_pow
        calc c < 2 ^ 29 := h
        _ ≤ 2 ^ i := Nat.pow_le_pow_right (by omega) (by omega)
      rw [hcb, Bool.false_and]

theorem to_bits_lt (sc : SubCube) : sc.to_bits < 8 := by
  cases sc <;> decide

theorem push_raw_eq (c : Nat) (sc : SubCube) : push_raw c sc = 8 * c + sc.to_bits := by
  unfold push_raw
  rw [Nat.shiftLeft_eq]
  have hb : sc.to_bits < 2 ^ 3 := by
    have := to_bits_lt sc
    omega
  rw [Nat.mul_comm c (2 ^ 3), ← Nat.mul_add_lt_is_or hb c]

/-- Every code reachable from `ROOT` by successful pushes lies in the
depth-`d` band `[8 ^ d, 2 * 8 ^ d)` for some `d ≤ 10`. -/
theorem valid_code_range (c : Nat) (h : ValidCode c) :
    ∃ d, d ≤ 10 ∧ 8 ^ d ≤ c ∧ c < 2 * 8 ^ d := by
  induction h with
  | root => exact ⟨0, by omega, by norm_num, by norm_num⟩
  | push c sc c2 hv hpush ih =>
    obtain ⟨d, hd10, hlo, hhi⟩ := ih
    have h32 : c < 2 ^ 32 := by
      calc c < 2 * 8 ^ d := hhi
      _ ≤ 2 * 8 ^ 10 := by
          have := Nat.pow_le_pow_right (show 1 ≤ 8 by omega) hd10
          omega
      _ < 2 ^ 32 := by norm_num
    have hguard : c &&& 0xE0000000 = 0 := by
      by_contra hcon
      unfold push_sub_cube at hpush
      rw [if_pos hcon] at hpush
      exact Option.noConfusion hpush
    have hc29 : c < 2 ^ 29 := (mask_iff c h32).mp hguard
    have hd9 : d ≤ 9 := by
      by_contra hcon
      have hd10e : d = 10 := by omega
      subst hd10e
      have : (8:Nat) ^ 10 = 2 ^ 30 := by norm_num
      omega
    have hc2 : c2 = 8 * c + sc.to_bits := by
      unfold push_sub_cube at hpush
      rw [if_neg (by omega : ¬ c &&& 0xE0000000 ≠ 0)] at hpush
      have := Option.some.inj hpush
      rw [← this, push_raw_eq]
    refine ⟨d + 1, by omega, ?_, ?_⟩
    · rw [hc2, Nat.pow_succ]
      omega
    · rw [hc2, Nat.pow_succ]
      have := to_bits_lt sc
      omega

theorem valid_lt_32 (c : Nat) (h : ValidCode c) : 1 ≤ c ∧ c < 2 ^ 31 := by
  obtain ⟨d, hd10, hlo, hhi⟩ := valid_code_range c h
  have h1 : (1:Nat) ≤ 8 ^ d := Nat.pos_pow_of_pos d (by omega)
  have h2 : (8:Nat) ^ d ≤ 8 ^ 10 := Nat.pow_le_pow_right (by omega) hd10
  have h3 : (8:Nat) ^ 10 = 2 ^ 30 := by norm_num
  constructor <;> omega

theorem get_volume_mem {T : Type} (m : Octree T) (c : Nat) (v : OctreeNode T)
    (h : get_volume m c = some v) : (c, v) ∈ m := by
  induction m with
  | nil => exact Option.noConfusion h
  | cons e r ih =>
    unfold get_volume at h
    by_cases hc : c = e.1
    · rw [if_pos hc] at h
      have hv := Option.some.inj h
      have he : (c, v) = e := by
        rw [hc, ← hv]
      rw [he]
      exact List.mem_cons_self e r
    · rw [if_neg hc] at h
      right
      exact ih h

/-- The no-orphans invariant follows from an entry-wise check over a
concrete map. -/
theorem child_parent_of_list {T : Type} (m : Octree T)
    (h : ∀ e ∈ m, e.1 < 8 ∨ get_volume m (e.1 >>> 3) = some .Subdivided) :
    ChildParent m := by
  intro c hc hs
  obtain ⟨v, hv⟩ := Option.isSome_iff_exists.mp hs
  have hmem := get_volume_mem m c v hv
  rcases h (c, v) hmem with h8 | hsub
  · omega
  · exact hsub

/-- C1: the claim says the map satisfies the Present/Subdivided coverage
invariant after every `set_volume` call.  The code violates it: starting
from a fresh octree, a split (`set_volume` at `ROOT.push LowerNe`) keeps the
invariant, but the following merge (`set_volume` at `ROOT` of the subdivided
root) leaves the root `Present` while seven of its children are still in the
map — `clear_subvolume_and_set` removes only the leftmost leaf, because its
sibling-walk loop advances all the way back to `volume` instead of stopping
at the next sibling. -/
theorem c1_set_volume_merge_breaks_coverage :
    set_volume ex_hom ex_tree0 11 1 = some (true, ex_tree1) ∧
    coverage_check ex_tree1 = true ∧
    set_volume ex_hom ex_tree1 1 2 = some (true, ex_tree2) ∧
    coverage_check ex_tree2 = false := by
  decide

/-- C2: the claim says the merge case of `set_volume` removes every
descendant of `code` and that afterwards no strict descendant remains.  On
the code, merging the subdivided root of `ex_tree1` removes only the
`LowerSw` child (address 8): addresses 9–15, strict descendants of the
merged volume, remain in the map next to the new `Present` root. -/
theorem c2_merge_leaves_stale_descendants :
    set_volume ex_hom ex_tree1 1 2 = some (true, ex_tree2) ∧
    get_volume ex_tree2 1 = some (.Present 2) ∧
    get_volume ex_tree2 9 = some (.Present 0) ∧
    get_volume ex_tree2 15 = some (.Present 0) ∧
    get_volume ex_tree2 8 = none := by
  decide

/-- C3: the claim says `to_location_code` succeeds without panicking on
every coordinate accepted by `ChunkRelativeCoord::new` (each axis below 64).
On the code, the per-level bits are extracted as `x >> shift` without
masking to one bit, so the coordinate `(8, 0, 0)` — accepted by `new` —
yields `8 >> 2 = 2` at the last level, `from_xyz` returns `None`, and the
`unwrap` panics.  Only coordinates with every axis below 8 survive all six
levels, as the successful evaluation at `(0, 0, 0)` illustrates. -/
theorem c3_to_location_code_panics_in_range :
    chunk_coord_ok 8 0 0 = true ∧
    to_location_code 8 0 0 = none ∧
    to_location_code 0 0 0 = some 262144 := by
  decide

/-- C4: the claim gives 1,1,2,2,3,3,4,5 output bytes for
0, 127, 128, 16383, 16384, 2097151, 2097152, `u32::MAX`, plus a round trip
through the structural inverse of the documented format.  The code uses
strict `<` against `0x7f`, `0x3fff`, `0x1fffff`, so the boundary values 127,
16383 and 2097151 each take one byte more than claimed, and it emits the
most significant group first while the documented format is
least-significant-first, so the spec-modelled decoder returns 16256 for the
encoding of 127 and 1 for the encoding of 128. -/
theorem c4_varint_lengths_and_round_trip :
    (write_varint 0).length = 1 ∧
    (write_varint 127).length = 2 ∧
    (write_varint 128).length = 2 ∧
    (write_varint 16383).length = 3 ∧
    (write_varint 16384).length = 3 ∧
    (write_varint 2097151).length = 4 ∧
    (write_varint 2097152).length = 4 ∧
    (write_varint 4294967295).length = 5 ∧
    read_varint (write_varint 127) = some 16256 ∧
    read_varint (write_varint 128) = some 1 := by
  decide

/-- C5: the claim says the first emitted byte carries the value's
least-significant 7 bits.  For 128 the code emits `[0x81, 0x00]`: the first
byte's data bits are 1 (the most significant group), not `128 & 0x7f = 0` —
the encoder writes the most significant group first, contradicting the
claim and the function's own doc comment. -/
theorem c5_varint_emits_most_significant_first :
    write_varint 128 = [129, 0] ∧ (129 : Nat) &&& 0x7f ≠ (128 : Nat) &&& 0x7f := by
  decide

/-- C6: on any map satisfying the coverage invariant (its no-orphans /
`Present`-has-no-children half suffices), a `set_volume` whose target lies
strictly inside a `Present` block holding a non-homogeneous value different
from the one being written returns `false` and leaves the map entirely
unchanged.  The ancestor is the target's `k`-th prefix, `k ≥ 1`. -/
theorem c6_refusal_returns_false_and_preserves_map {T : Type} [DecidableEq T]
    (is_hom : T → Bool) (m : Octree T) (volume k : Nat) (data vd : T)
    (hcp : ChildParent m) (h32 : volume < 2 ^ 32) (hk : 1 ≤ k) (h8k : 8 ^ k ≤ volume)
    (hp : get_volume m (volume >>> (3 * k)) = some (.Present vd))
    (hvd : is_hom vd = false) (hne : vd ≠ data) :
    set_volume is_hom m volume data = some (false, m) := by
  have h8w : 8 ≤ volume := by
    calc (8:Nat) = 8 ^ 1 := by norm_num
    _ ≤ 8 ^ k := Nat.pow_le_pow_right (by omega) (by omega)
    _ ≤ volume := h8k
  unfold set_volume
  have hja : from_root_to_just_above_here volume = from_root_to_here (volume >>> 3) := by
    unfold from_root_to_just_above_here containing_cube
    rw [if_neg (by omega : ¬ volume = 1)]
  rw [hja]
  have hp2 : get_volume m ((volume >>> 3) >>> (3 * (k - 1))) = some (.Present vd) := by
    rw [← Nat.shiftRight_add]
    have he : 3 + 3 * (k - 1) = 3 * k := by omega
    rw [he]
    exact hp
  have h8t : 8 ^ (k - 1) ≤ volume >>> 3 := by
    have hd : volume >>> 3 = volume / 8 ^ 1 := by
      rw [Nat.shiftRight_eq_div_pow]
      norm_num
    rw [hd]
    have h1 : 8 ^ k / 8 ^ 1 ≤ volume / 8 ^ 1 := Nat.div_le_div_right h8k
    rw [Nat.pow_div (by omega) (by omega)] at h1
    exact h1
  have h32b : volume >>> 3 < 2 ^ 32 := by
    have hd : volume >>> 3 = volume / 2 ^ 3 := Nat.shiftRight_eq_div_pow volume 3
    have h2 : volume / 2 ^ 3 ≤ volume := Nat.div_le_self volume 8
    omega
  rw [walk_early is_hom data (is_hom data) m hcp vd hvd hne (k - 1) (volume >>> 3) h32b h8t hp2]

/-- C6 witness: a depth-1 octree whose `LowerSw` child holds value 5 under a
policy that deems everything non-homogeneous; writing 7 one level below that
child returns `false` and leaves the map unchanged. -/
theorem c6_refusal_witness :
    set_volume (fun _ => false) ex6_map 69 7 = some (false, ex6_map) :=
  c6_refusal_returns_false_and_preserves_map (fun _ => false) ex6_map 69 1 7 5
    (child_parent_of_list ex6_map (by decide))
    (by norm_num) (by norm_num) (by norm_num) (by decide) rfl (by decide)

/-- C7: from a root holding homogeneous `A`, `set_volume (ROOT.push LowerNe) B`
with homogeneous `B ≠ A` splits the root, and `depth_first_blocks` then
yields exactly the eight depth-1 octants in canonical order, `LowerNe`
holding `B` and the rest `A`. -/
theorem c7_split_then_depth_first_blocks {T : Type} [DecidableEq T] (is_hom : T → Bool)
    (A B : T) (hA : is_hom A = true) (hB : is_hom B = true) (hne : A ≠ B) :
    (set_volume is_hom (with_block A) (push_raw 1 .LowerNe) B).map
        (fun r => (r.1, depth_first_blocks r.2)) =
      some (true, some
        [(push_raw 1 .LowerSw, A), (push_raw 1 .LowerSe, A), (push_raw 1 .LowerNw, A),
          (push_raw 1 .LowerNe, B), (push_raw 1 .UpperSw, A), (push_raw 1 .UpperSe, A),
          (push_raw 1 .UpperNw, A), (push_raw 1 .UpperNe, A)]) := by
  have hwalk : walk_path is_hom B (is_hom B) [1] (with_block A) =
      some (.through [(1, .Subdivided), (15, .Present A), (14, .Present A), (13, .Present A),
        (12, .Present A), (11, .Present A), (10, .Present A), (9, .Present A),
        (8, .Present A)]) := by
    simp only [walk_path, show get_volume (with_block A) 1 = some (.Present A) from rfl]
    rw [decide_eq_false hne, Bool.and_false]
    rw [if_neg (by simp), hA, if_pos rfl]
    rfl
  have hsv : set_volume is_hom (with_block A) (push_raw 1 .LowerNe) B =
      some (true, [(11, .Present B), (1, .Subdivided), (15, .Present A), (14, .Present A),
        (13, .Present A), (12, .Present A), (10, .Present A), (9, .Present A),
        (8, .Present A)]) := by
    show set_volume is_hom (with_block A) 11 B = _
    unfold set_volume
    rw [show from_root_to_just_above_here 11 = [1] from rfl, hwalk]
    rfl
  rw [hsv]
  rfl

/-- C7 witness: the concrete instance of the test and benchmark, `A = 0`,
`B = 2`, everything homogeneous. -/
theorem c7_split_witness :
    (set_volume (fun _ => true) (with_block (0:Nat)) (push_raw 1 .LowerNe) 2).map
        (fun r => (r.1, depth_first_blocks r.2)) =
      some (true, some
        [(push_raw 1 .LowerSw, 0), (push_raw 1 .LowerSe, 0), (push_raw 1 .LowerNw, 0),
          (push_raw 1 .LowerNe, 2), (push_raw 1 .UpperSw, 0), (push_raw 1 .UpperSe, 0),
          (push_raw 1 .UpperNw, 0), (push_raw 1 .UpperNe, 0)]) :=
  c7_split_then_depth_first_blocks (fun _ => true) 0 2 rfl rfl (by decide)

/-- C8 counterexample: the claim also asserts that in practice the 10 most
significant bits of the code must be zero before a push for it to succeed.
The depth-9 code built from nine `UpperNe` pushes is `0x0FFFFFFF`: bits
22–27 — inside the 10 most significant — are set, yet the push succeeds. -/
theorem c8_ten_bit_claim_counterexample :
    ValidCode 268435455 ∧ (268435455 : Nat) &&& 0xFFC00000 ≠ 0 ∧
    push_sub_cube 268435455 SubCube.UpperNe ≠ none := by
  refine ⟨?_, by decide, by decide⟩
  have v1 : ValidCode 15 := .push 1 .UpperNe 15 .root (by decide)
  have v2 : ValidCode 127 := .push 15 .UpperNe 127 v1 (by decide)
  have v3 : ValidCode 1023 := .push 127 .UpperNe 1023 v2 (by decide)
  have v4 : ValidCode 8191 := .push 1023 .UpperNe 8191 v3 (by decide)
  have v5 : ValidCode 65535 := .push 8191 .UpperNe 65535 v4 (by decide)
  have v6 : ValidCode 524287 := .push 65535 .UpperNe 524287 v5 (by decide)
  have v7 : ValidCode 4194303 := .push 524287 .UpperNe 4194303 v6 (by decide)
  have v8 : ValidCode 33554431 := .push 4194303 .UpperNe 33554431 v7 (by decide)
  exact .push 33554431 .UpperNe 268435455 v8 (by decide)

/-- C8 amended: for every code reachable from `ROOT` by pushes, a push fails
exactly when one of the 3 (not 10) most significant bits of the 32-bit word
is set, and equivalently exactly when the push would shift the sentinel bit
(the leading one, at position `bit_len - 1`) out of the 32-bit word. -/
theorem c8_push_capacity_guard (c : Nat) (sc : SubCube) (hc : ValidCode c) :
    ((push_sub_cube c sc = none) ↔ c &&& 0xE0000000 ≠ 0)
    ∧ ((push_sub_cube c sc = none) ↔ 30 ≤ bit_len c) := by
  have h1 : (push_sub_cube c sc = none) ↔ c &&& 0xE0000000 ≠ 0 := by
    unfold push_sub_cube
    by_cases hg : c &&& 0xE0000000 ≠ 0
    · rw [if_pos hg]
      simp [hg]
    · rw [if_neg hg]
      simp [hg]
  refine ⟨h1, h1.trans ?_⟩
  obtain ⟨d, hd10, hlo, hhi⟩ := valid_code_range c hc
  obtain ⟨hc1, hc31⟩ := valid_lt_32 c hc
  have h32 : c < 2 ^ 32 := by
    have : (2:Nat) ^ 31 < 2 ^ 32 := by norm_num
    omega
  have hguard_iff : (c &&& 0xE0000000 ≠ 0) ↔ 2 ^ 29 ≤ c := by
    rw [← Nat.not_lt, ← mask_iff c h32]
  have hbl : bit_len c = 3 * d + 1 := by
    apply bit_len_eq c (3 * d) _ _ h32
    · rw [← pow8_eq]
      exact hlo
    · rw [Nat.pow_succ, Nat.mul_comm (2 ^ (3 * d)) 2, ← pow8_eq]
      exact hhi
  rw [hguard_iff, hbl]
  interval_cases d <;> (norm_num at hlo hhi ⊢; omega)

/-- C8 witness: at `ROOT` the push succeeds, the guard bits are clear, and
the sentinel stays inside the word. -/
theorem c8_push_capacity_witness :
    ((push_sub_cube 1 SubCube.LowerSw = none) ↔ (1:Nat) &&& 0xE0000000 ≠ 0)
    ∧ ((push_sub_cube 1 SubCube.LowerSw = none) ↔ 30 ≤ bit_len 1) :=
  c8_push_capacity_guard 1 SubCube.LowerSw ValidCode.root

/-- C9: saving a chunk and loading it back from the same open region returns
the original bytes, for any store contents, coordinate and non-empty byte
string, given the round-trip contract of the external compressor. -/
theorem c9_region_round_trip (compress decompress : List Nat → List Nat) (st : RegionStore)
    (coord : Int × Int × Int) (bytes : List Nat)
    (hrt : decompress (compress bytes) = bytes) (hne : bytes ≠ []) :
    load_chunk decompress (save_chunk compress st coord bytes) coord = some bytes := by
  have hfind : store_find (save_chunk compress st coord bytes) coord =
      some (1, compress bytes) := by
    unfold save_chunk store_find
    rw [if_pos rfl]
    rfl
  unfold load_chunk
  rw [hfind]
  show some (decompress (compress bytes)) = some bytes
  rw [hrt]

/-- C9 witness: identity compressor, empty store, one-byte payload. -/
theorem c9_region_round_trip_witness :
    load_chunk id (save_chunk id [] (0, 0, 0) [7]) (0, 0, 0) = some [7] :=
  c9_region_round_trip id id [] (0, 0, 0) [7] rfl (by decide)

/-- C10: `Chunk::set_block` drops the boolean of the underlying `set_volume`
call: whatever boolean `b` that call returned, `set_block` returns normally
with just the updated map, so a refused write (`b = false`, map unchanged)
is indistinguishable from a successful one at the `Chunk` interface. -/
theorem c10_set_block_discards_refusal (defs : Nat → Bool) (m : Octree OctreeBlock)
    (x y z : Nat) (block : OctreeBlock) (code : Nat) (b : Bool) (m2 : Octree OctreeBlock)
    (hc : to_location_code x y z = some code)
    (hv : set_volume (block_is_homogeneous defs) m code block = some (b, m2)) :
    set_block defs m x y z block = some m2 := by
  unfold set_block
  rw [hc]
  show (set_volume (block_is_homogeneous defs) m code block).map (fun r => r.2) = some m2
  rw [hv]
  rfl

/-- C10 witness: a root holding a non-homogeneous block 5; writing block 7
at `(0,0,0)` is refused by `set_volume` (`false`, map unchanged), yet
`set_block` returns normally with the unchanged chunk. -/
theorem c10_set_block_witness :
    set_block (fun _ => false) [(1, .Present (some 5))] 0 0 0 (some 7) =
      some [(1, .Present (some 5))] :=
  c10_set_block_discards_refusal (fun _ => false) [(1, .Present (some 5))] 0 0 0 (some 7)
    262144 false [(1, .Present (some 5))] rfl (by decide)

end Voxel
